import Mathlib

/-!
Shallow embedding of the generic numeric vector library in `src/main.cc`
(`template <typename T> class Vector` plus the free function `find_pu_vector`).

Modelling choices:
* A `Vector<T>` value is its element buffer, a `List α`; `_size` is the list
  length (the C++ invariant `buffer length = _size` always holds in the source).
* The floating-point element type `T = double` is idealised as `ℝ` (exact real
  arithmetic); operations that do not need `sqrt` are stated generically over a
  `LinearOrderedField` so concrete witnesses can be evaluated.
* C++ exceptions become `Except VErr` results; the in-place `normalize` is
  modelled as a state-returning function `List ℝ → List ℝ × Option VErr` whose
  first component is the buffer after the call (the source validates the
  length-squared before the mutation loop, so on the throwing path the buffer
  is returned untouched, exactly as in the code).
* `std::mt19937` draws are modelled by an oracle `draw : Nat → α`; the contract
  of `std::uniform_{int,real}_distribution(lo, hi)` (results within `[lo, hi]`)
  becomes a hypothesis on the oracle.
* `_size` is a `size_t`; the expression `_size - other._size` in `operator==`
  therefore wraps modulo `2 ^ 64`, which `usub64` models exactly.
-/

/-- The error kinds reported by the vector library: out-of-range indexing,
dimension mismatch in elementwise arithmetic, scalar division by zero, and
normalisation of a zero vector. -/
inductive VErr : Type
  | IndexOutOfRange : VErr
  | DimensionMismatch : VErr
  | DivideByZero : VErr
  | ZeroVector : VErr
deriving DecidableEq, Repr

namespace Vec

/-- Wrapping unsigned 64-bit subtraction, the value of the C++ expression
`_size - other._size` for `size_t` operands. -/
def usub64 (n m : Nat) : Nat :=
  (n + (2 ^ 64 - m % 2 ^ 64)) % 2 ^ 64

variable {α : Type} [LinearOrderedField α]

/-- `Vector::operator+` (src/main.cc:56-65): dimension check, then a fresh
result vector with elementwise sums. -/
def vadd (a b : List α) : Except VErr (List α) :=
  if a.length ≠ b.length then .error .DimensionMismatch
  else .ok (List.zipWith (· + ·) a b)

/-- `Vector::operator-` (src/main.cc:67-76): dimension check, then a fresh
result vector with elementwise differences. -/
def vsub (a b : List α) : Except VErr (List α) :=
  if a.length ≠ b.length then .error .DimensionMismatch
  else .ok (List.zipWith (· - ·) a b)

/-- `Vector::operator*(const Vector&)` (src/main.cc:78-87): dimension check,
then a fresh result vector with elementwise products. -/
def vmul (a b : List α) : Except VErr (List α) :=
  if a.length ≠ b.length then .error .DimensionMismatch
  else .ok (List.zipWith (· * ·) a b)

/-- `Vector::operator*(const T&)` (src/main.cc:111-117): elementwise scaling,
never fails. -/
def smul (a : List α) (s : α) : List α :=
  a.map (· * s)

/-- `Vector::operator/` (src/main.cc:119-128): throws `DivideByZero` when the
scalar equals `T()` (the zero of the element type), else divides elementwise
into a fresh result vector. -/
def vdiv (a : List α) (s : α) : Except VErr (List α) :=
  if s = 0 then .error .DivideByZero
  else .ok (a.map (· / s))

/-- `Vector::operator[]` (src/main.cc:42-54): throws `IndexOutOfRange` when
`index >= _size`, else returns the element stored at that index. -/
def vget (a : List α) (i : Nat) : Except VErr α :=
  if i ≥ a.length then .error .IndexOutOfRange
  else .ok (a.getD i 0)

/-- `Vector::operator==` (src/main.cc:157-170): compares `_size - other._size`
(a wrapping `size_t` subtraction, then `std::abs` through its
integral-to-double overload) against `eps = 1.0E-5`, then walks the receiver's
indices rejecting any pair of elements farther apart than `eps`. -/
def veq (a b : List α) : Bool :=
  if ((usub64 a.length b.length : Nat) : α) > 1e-5 then false
  else (List.range a.length).all fun i => decide (|a.getD i 0 - b.getD i 0| ≤ 1e-5)

/-- `Vector::operator!=` (src/main.cc:172): logical negation of `==`. -/
def vneq (a b : List α) : Bool :=
  !veq a b

/-- The random-fill constructor `Vector(size, low_bound, up_bound)`
(src/main.cc:21-40): allocates `size` elements, each produced by one draw from
a `uniform_{int,real}_distribution(low_bound, up_bound)`; the distribution is
modelled by the oracle `draw`, consumed once per index. -/
def randomFill (n : Nat) (lo hi : α) (draw : Nat → α) : List α :=
  (List.range n).map draw

/-- The accumulation `length_squared = sum of _elem[i] * _elem[i]` computed by
`Vector::normalize` (src/main.cc:194-197). -/
def sumSq (v : List α) : α :=
  (v.map fun x => x * x).sum

/-- The dot product of two equal-length vectors, used to state orthogonality
(the spec's `dot(o, normalize(a))`). -/
def dot (a b : List α) : α :=
  (List.zipWith (· * ·) a b).sum

/-- `Vector::normalize` (src/main.cc:193-209), in place: returns the buffer
after the call together with the error, if any.  The source sums the squares,
throws `ZeroVector` before touching the buffer when the sum is zero, and only
then divides every element by `sqrt(length_squared)`. -/
noncomputable def normalize (v : List ℝ) : List ℝ × Option VErr :=
  let ls := sumSq v
  if ls = 0 then (v, some .ZeroVector)
  else (v.map fun x => x / Real.sqrt ls, none)

/-- `Vector::normalize` as an exception-propagating expression: the result
value on success, the thrown error otherwise. -/
noncomputable def normalizeE (v : List ℝ) : Except VErr (List ℝ) :=
  match normalize v with
  | (_, some e) => .error e
  | (w, none) => .ok w

/-- The prefix of `find_pu_vector` (src/main.cc:229-240) up to and including
`b_orth = b - project`: normalise a copy of `a`, draw the random vector `b`,
form `project = (b * a_norm) * a_norm` (two elementwise products, as written
in the source), and subtract. -/
noncomputable def pu_orth (a : List ℝ) (draw : Nat → ℝ) : Except VErr (List ℝ) :=
  match normalizeE a with
  | .error e => .error e
  | .ok a_norm =>
    let b := randomFill a.length (-1 : ℝ) 1 draw
    match vmul b a_norm with
    | .error e => .error e
    | .ok p1 =>
      match vmul p1 a_norm with
      | .error e => .error e
      | .ok project => vsub b project

/-- `find_pu_vector` (src/main.cc:228-244) in state-passing form: the first
component is the buffer of the argument `a` after the call (the source takes
`a` by const reference and copies it into the local `a_norm` through the
deep-copying copy constructor, so every mutation acts on local buffers), the
second the returned vector or the propagated exception. -/
noncomputable def find_pu_vector_run (a : List ℝ) (draw : Nat → ℝ) :
    List ℝ × Except VErr (List ℝ) :=
  match pu_orth a draw with
  | .error e => (a, .error e)
  | .ok b_orth =>
    match normalize b_orth with
    | (_, some e) => (a, .error e)
    | (o, none) => (a, .ok o)

/-- `find_pu_vector` (src/main.cc:228-244): the value returned to the caller. -/
noncomputable def find_pu_vector (a : List ℝ) (draw : Nat → ℝ) :
    Except VErr (List ℝ) :=
  (find_pu_vector_run a draw).2

end Vec

section Helpers

variable {α : Type} [LinearOrderedField α]

lemma Vec.sumSq_nonneg (v : List α) : 0 ≤ Vec.sumSq v := by
  refine List.sum_nonneg ?_
  intro x hx
  obtain ⟨y, -, rfl⟩ := List.mem_map.1 hx
  exact mul_self_nonneg y

lemma Vec.getD_zipWith (f : α → α → α) (a b : List α) (i : Nat)
    (ha : i < a.length) (hb : i < b.length) :
    (List.zipWith f a b).getD i 0 = f (a.getD i 0) (b.getD i 0) := by
  have hlen : i < (List.zipWith f a b).length := by
    simpa [List.length_zipWith] using ⟨ha, hb⟩
  rw [List.getD_eq_getElem _ _ hlen, List.getD_eq_getElem _ _ ha,
    List.getD_eq_getElem _ _ hb, List.getElem_zipWith]

lemma Vec.getD_map_elem (f : α → α) (v : List α) (i : Nat) (hi : i < v.length) :
    (v.map f).getD i 0 = f (v.getD i 0) := by
  have hlen : i < (v.map f).length := by simpa using hi
  rw [List.getD_eq_getElem _ _ hlen, List.getD_eq_getElem _ _ hi, List.getElem_map]

lemma Vec.zipWith_elem (f : α → α → α) (a b : List α) (h : a.length = b.length) :
    (List.zipWith f a b).length = a.length ∧
      ∀ i < a.length, (List.zipWith f a b).getD i 0 = f (a.getD i 0) (b.getD i 0) := by
  refine ⟨by simp [List.length_zipWith, h], ?_⟩
  intro i hi
  exact Vec.getD_zipWith f a b i hi (h ▸ hi)

end Helpers

/-- C8: element access `vget v i` fails with `IndexOutOfRange` exactly when
`i ≥ v.length`, and otherwise returns the element stored at position `i`
itself, with no clamping of the index. -/
theorem vget_spec (v : List ℝ) (i : Nat) :
    (Vec.vget v i = .error .IndexOutOfRange ↔ v.length ≤ i) ∧
    (∀ h : i < v.length, Vec.vget v i = .ok (v.get ⟨i, h⟩)) := by
  constructor
  · unfold Vec.vget
    split
    · simp_all
    · simp_all [lt_of_not_ge]
  · intro h
    unfold Vec.vget
    rw [if_neg (by omega), List.getD_eq_getElem _ _ h]
    simp [List.get_eq_getElem]

/-- C8 witness: on the vector `[5, 7]`, access at index 1 returns `7` and
access at index 5 fails with `IndexOutOfRange`. -/
theorem vget_spec_witness :
    Vec.vget ([5, 7] : List ℝ) 1 = .ok 7 ∧
    Vec.vget ([5, 7] : List ℝ) 5 = .error .IndexOutOfRange := by
  refine ⟨?_, ?_⟩
  · have h := (vget_spec ([5, 7] : List ℝ) 1).2 (by norm_num)
    simpa using h
  · exact (vget_spec ([5, 7] : List ℝ) 5).1.2 (by norm_num)

/-- C5: each of `vadd`, `vsub`, `vmul` fails with `DimensionMismatch` exactly
when the operand lengths differ, and on equal lengths returns a fresh vector
of that length whose entry at each index `i` is the sum, difference, or
product of the operands' entries at `i`.  The operands themselves are
untouched: the source methods are `const` and write only into the fresh
`result` vector, which the purely functional embedding reflects by never
rebinding `a` or `b`. -/
theorem arith_dim_spec (a b : List ℝ) :
    ((Vec.vadd a b = .error .DimensionMismatch ↔ a.length ≠ b.length) ∧
      (a.length = b.length → ∃ r, Vec.vadd a b = .ok r ∧ r.length = a.length ∧
        ∀ i < a.length, r.getD i 0 = a.getD i 0 + b.getD i 0)) ∧
    ((Vec.vsub a b = .error .DimensionMismatch ↔ a.length ≠ b.length) ∧
      (a.length = b.length → ∃ r, Vec.vsub a b = .ok r ∧ r.length = a.length ∧
        ∀ i < a.length, r.getD i 0 = a.getD i 0 - b.getD i 0)) ∧
    ((Vec.vmul a b = .error .DimensionMismatch ↔ a.length ≠ b.length) ∧
      (a.length = b.length → ∃ r, Vec.vmul a b = .ok r ∧ r.length = a.length ∧
        ∀ i < a.length, r.getD i 0 = a.getD i 0 * b.getD i 0)) := by
  refine ⟨⟨?_, ?_⟩, ⟨?_, ?_⟩, ⟨?_, ?_⟩⟩
  · unfold Vec.vadd; split <;> simp_all
  · intro h
    refine ⟨List.zipWith (· + ·) a b, ?_, Vec.zipWith_elem _ a b h⟩
    unfold Vec.vadd
    rw [if_neg (by omega)]
  · unfold Vec.vsub; split <;> simp_all
  · intro h
    refine ⟨List.zipWith (· - ·) a b, ?_, Vec.zipWith_elem _ a b h⟩
    unfold Vec.vsub
    rw [if_neg (by omega)]
  · unfold Vec.vmul; split <;> simp_all
  · intro h
    refine ⟨List.zipWith (· * ·) a b, ?_, Vec.zipWith_elem _ a b h⟩
    unfold Vec.vmul
    rw [if_neg (by omega)]

/-- C5 witness: on `[1]` against `[1, 2]` all three operations fail with
`DimensionMismatch`; on `[1, 2]` against `[3, 4]` addition yields the
elementwise sums `4` and `6`. -/
theorem arith_dim_spec_witness :
    Vec.vadd ([1] : List ℝ) [1, 2] = .error .DimensionMismatch ∧
    Vec.vsub ([1] : List ℝ) [1, 2] = .error .DimensionMismatch ∧
    Vec.vmul ([1] : List ℝ) [1, 2] = .error .DimensionMismatch ∧
    ∃ r, Vec.vadd ([1, 2] : List ℝ) [3, 4] = .ok r ∧
      r.getD 0 0 = 4 ∧ r.getD 1 0 = 6 := by
  refine ⟨?_, ?_, ?_, ?_⟩
  · exact (arith_dim_spec ([1] : List ℝ) [1, 2]).1.1.mpr (by norm_num)
  · exact (arith_dim_spec ([1] : List ℝ) [1, 2]).2.1.1.mpr (by norm_num)
  · exact (arith_dim_spec ([1] : List ℝ) [1, 2]).2.2.1.mpr (by norm_num)
  · obtain ⟨r, hr, -, helem⟩ :=
      (arith_dim_spec ([1, 2] : List ℝ) [3, 4]).1.2 (by norm_num)
    have h0 := helem 0 (by norm_num)
    have h1 := helem 1 (by norm_num)
    simp only [List.getD_cons_zero, List.getD_cons_succ] at h0 h1
    exact ⟨r, hr, by rw [h0]; norm_num, by rw [h1]; norm_num⟩

/-- C6: scalar division fails with `DivideByZero` exactly when the scalar is
the zero of the element type (for every vector, the empty one included), and
otherwise returns a fresh vector of the same length with every entry of `v`
divided by `s`; `v` itself is untouched (the source method is `const`). -/
theorem vdiv_spec (v : List ℝ) (s : ℝ) :
    (Vec.vdiv v s = .error .DivideByZero ↔ s = 0) ∧
    (s ≠ 0 → ∃ r, Vec.vdiv v s = .ok r ∧ r.length = v.length ∧
      ∀ i < v.length, r.getD i 0 = v.getD i 0 / s) := by
  constructor
  · unfold Vec.vdiv; split <;> simp_all
  · intro h
    refine ⟨v.map (· / s), ?_, by simp, ?_⟩
    · unfold Vec.vdiv
      rw [if_neg h]
    · intro i hi
      exact Vec.getD_map_elem _ v i hi

/-- C6 witness: dividing `[2, 4]` by `0` fails with `DivideByZero` (likewise
the empty vector), while dividing by `2` yields entries `1` and `2`. -/
theorem vdiv_spec_witness :
    Vec.vdiv ([2, 4] : List ℝ) 0 = .error .DivideByZero ∧
    Vec.vdiv ([] : List ℝ) 0 = .error .DivideByZero ∧
    ∃ r, Vec.vdiv ([2, 4] : List ℝ) 2 = .ok r ∧
      r.getD 0 0 = 1 ∧ r.getD 1 0 = 2 := by
  refine ⟨(vdiv_spec ([2, 4] : List ℝ) 0).1.mpr rfl,
    (vdiv_spec ([] : List ℝ) 0).1.mpr rfl, ?_⟩
  obtain ⟨r, hr, -, helem⟩ := (vdiv_spec ([2, 4] : List ℝ) 2).2 (by norm_num)
  have h0 := helem 0 (by norm_num)
  have h1 := helem 1 (by norm_num)
  simp only [List.getD_cons_zero, List.getD_cons_succ] at h0 h1
  exact ⟨r, hr, by rw [h0]; norm_num, by rw [h1]; norm_num⟩

/-- C7: whenever every draw of the random source lies in `[lo, hi]` (the
contract of `uniform_int_distribution(lo, hi)`, inclusive, and a superset of
`uniform_real_distribution`'s `[lo, hi)`), the random-fill constructor
produces a vector of exactly `n` elements, each within `[lo, hi]`. -/
theorem randomFill_spec (n : Nat) (lo hi : ℝ) (draw : Nat → ℝ)
    (hdraw : ∀ i, lo ≤ draw i ∧ draw i ≤ hi) :
    (Vec.randomFill n lo hi draw).length = n ∧
    ∀ x ∈ Vec.randomFill n lo hi draw, lo ≤ x ∧ x ≤ hi := by
  refine ⟨by simp [Vec.randomFill], ?_⟩
  intro x hx
  unfold Vec.randomFill at hx
  simp only [List.mem_map, List.mem_range] at hx
  obtain ⟨i, -, rfl⟩ := hx
  exact hdraw i

/-- C7 witness: a constantly-zero draw within bounds `[-1, 1]` fills a
length-2 vector whose elements all lie in `[-1, 1]`. -/
theorem randomFill_spec_witness :
    (Vec.randomFill 2 (-1 : ℝ) 1 fun _ => 0).length = 2 ∧
    ∀ x ∈ Vec.randomFill 2 (-1 : ℝ) 1 fun _ => 0, -1 ≤ x ∧ x ≤ 1 :=
  randomFill_spec 2 (-1) 1 (fun _ => 0) (by intro i; norm_num)

/-- C4: `normalize` signals the `ZeroVector` error exactly when the sum of
squared elements is zero (so in particular on every empty vector, whose sum
is the empty sum), and on that path the buffer is returned with its size and
elements completely unchanged: the source throws before its mutation loop. -/
theorem normalize_zero_spec (v : List ℝ) :
    ((Vec.normalize v).2 = some VErr.ZeroVector ↔ Vec.sumSq v = 0) ∧
    (Vec.sumSq v = 0 → (Vec.normalize v).1 = v) := by
  by_cases h : Vec.sumSq v = 0
  · exact ⟨by simp [Vec.normalize, h], fun _ => by simp [Vec.normalize, h]⟩
  · exact ⟨by simp [Vec.normalize, h], fun hc => absurd hc h⟩

/-- C4 witness: the empty vector has zero sum of squares, so `normalize`
signals `ZeroVector` and leaves the buffer empty as it was. -/
theorem normalize_zero_spec_witness :
    (Vec.normalize ([] : List ℝ)).2 = some VErr.ZeroVector ∧
    (Vec.normalize ([] : List ℝ)).1 = [] := by
  have hz : Vec.sumSq ([] : List ℝ) = 0 := by simp [Vec.sumSq]
  exact ⟨(normalize_zero_spec ([] : List ℝ)).1.mpr hz,
    (normalize_zero_spec ([] : List ℝ)).2 hz⟩

/-- C2: when the sum of squared elements is nonzero, `normalize` succeeds and
divides every element in place by the square root of that sum, preserving the
length. -/
theorem normalize_div_spec (v : List ℝ) (h : Vec.sumSq v ≠ 0) :
    (Vec.normalize v).2 = none ∧
    (Vec.normalize v).1.length = v.length ∧
    ∀ i < v.length, (Vec.normalize v).1.getD i 0 =
      v.getD i 0 / Real.sqrt (Vec.sumSq v) := by
  refine ⟨by simp [Vec.normalize, h], by simp [Vec.normalize, h], ?_⟩
  intro i hi
  have hmap : (Vec.normalize v).1 = v.map fun x => x / Real.sqrt (Vec.sumSq v) := by
    simp [Vec.normalize, h]
  rw [hmap, Vec.getD_map_elem _ v i hi]

/-- C2 witness: `normalize` on `[3, 4]` succeeds and produces elements within
`1e-5` of `0.6` and `0.8` (here exactly: the length is `5`). -/
theorem normalize_div_spec_witness :
    Vec.sumSq ([3, 4] : List ℝ) ≠ 0 ∧
    (Vec.normalize ([3, 4] : List ℝ)).2 = none ∧
    |(Vec.normalize ([3, 4] : List ℝ)).1.getD 0 0 - 0.6| ≤ 1e-5 ∧
    |(Vec.normalize ([3, 4] : List ℝ)).1.getD 1 0 - 0.8| ≤ 1e-5 := by
  have hs : Vec.sumSq ([3, 4] : List ℝ) = 25 := by norm_num [Vec.sumSq]
  have hne : Vec.sumSq ([3, 4] : List ℝ) ≠ 0 := by rw [hs]; norm_num
  have h := normalize_div_spec ([3, 4] : List ℝ) hne
  have h0 := h.2.2 0 (by norm_num)
  have h1 := h.2.2 1 (by norm_num)
  have hsq : Real.sqrt (Vec.sumSq ([3, 4] : List ℝ)) = 5 := by
    rw [hs, show (25 : ℝ) = 5 ^ 2 by norm_num, Real.sqrt_sq (by norm_num)]
  rw [hsq] at h0 h1
  simp only [List.getD_cons_zero, List.getD_cons_succ] at h0 h1
  refine ⟨hne, h.1, by rw [h0]; norm_num, by rw [h1]; norm_num⟩

lemma Vec.usub64_eq_zero_iff (n m : Nat) (hn : n < 2 ^ 64) (hm : m < 2 ^ 64) :
    Vec.usub64 n m = 0 ↔ n = m := by
  have h64 : (2 : Nat) ^ 64 = 18446744073709551616 := by norm_num
  simp only [Vec.usub64, h64] at *
  omega

lemma Vec.nat_cast_gt_eps {k : Nat} (hk : k ≠ 0) : (1e-5 : ℝ) < (k : ℝ) := by
  have h1 : (1 : ℝ) ≤ (k : ℝ) := by exact_mod_cast Nat.one_le_iff_ne_zero.mpr hk
  have h2 : (1e-5 : ℝ) < 1 := by norm_num
  linarith

/-- C3: over vectors of machine-representable size, `==` returns `true`
exactly when the sizes agree and every corresponding pair of elements differs
by at most `1e-5` in absolute value (the wrapped `size_t` difference of two
distinct machine sizes is at least `1`, so it always exceeds the `1e-5`
tolerance), and `!=` is the logical negation of `==`. -/
theorem veq_spec (a b : List ℝ) (ha : a.length < 2 ^ 64) (hb : b.length < 2 ^ 64) :
    (Vec.veq a b = true ↔
      a.length = b.length ∧ ∀ i < a.length, |a.getD i 0 - b.getD i 0| ≤ 1e-5) ∧
    Vec.vneq a b = !Vec.veq a b := by
  refine ⟨?_, rfl⟩
  unfold Vec.veq
  by_cases hlen : a.length = b.length
  · rw [(Vec.usub64_eq_zero_iff a.length b.length ha hb).mpr hlen]
    rw [if_neg (by norm_num : ¬((0 : Nat) : ℝ) > 1e-5)]
    simp only [List.all_eq_true, List.mem_range, decide_eq_true_eq]
    exact ⟨fun h => ⟨hlen, h⟩, fun h => h.2⟩
  · have hne : Vec.usub64 a.length b.length ≠ 0 := fun h0 =>
      hlen ((Vec.usub64_eq_zero_iff a.length b.length ha hb).mp h0)
    rw [if_pos (Vec.nat_cast_gt_eps hne)]
    simp only [Bool.false_eq_true, false_iff]
    exact fun h => hlen h.1

/-- C3 witness: `[1, 2, 3] == [1.00001, 2, 3]` holds (the difference is
exactly the tolerance), while `[1, 2] == [1, 2, 3]` fails on the sizes. -/
theorem veq_spec_witness :
    Vec.veq ([1, 2, 3] : List ℝ) [1.00001, 2, 3] = true ∧
    Vec.veq ([1, 2] : List ℝ) [1, 2, 3] = false := by
  constructor
  · refine ((veq_spec ([1, 2, 3] : List ℝ) [1.00001, 2, 3]
      (by norm_num) (by norm_num)).1).mpr ⟨rfl, ?_⟩
    intro i hi
    have hi3 : i < 3 := by simpa using hi
    interval_cases i <;>
      simp only [List.getD_cons_zero, List.getD_cons_succ] <;>
      rw [abs_le] <;> constructor <;> norm_num
  · have h := (veq_spec ([1, 2] : List ℝ) [1, 2, 3] (by norm_num) (by norm_num)).1
    by_contra hc
    rw [Bool.not_eq_false] at hc
    have hl := (h.mp hc).1
    norm_num at hl

/-- C10: vector equality is symmetric; for machine-representable sizes,
`a == b` and `b == a` always return the same boolean. -/
theorem veq_symm (a b : List ℝ) (ha : a.length < 2 ^ 64) (hb : b.length < 2 ^ 64) :
    Vec.veq a b = Vec.veq b a := by
  by_cases hlen : a.length = b.length
  · unfold Vec.veq
    rw [(Vec.usub64_eq_zero_iff a.length b.length ha hb).mpr hlen,
      (Vec.usub64_eq_zero_iff b.length a.length hb ha).mpr hlen.symm]
    rw [if_neg (by norm_num : ¬((0 : Nat) : ℝ) > 1e-5),
      if_neg (by norm_num : ¬((0 : Nat) : ℝ) > 1e-5)]
    have hfun : (fun i => decide (|a.getD i 0 - b.getD i 0| ≤ (1e-5 : ℝ))) =
        fun i => decide (|b.getD i 0 - a.getD i 0| ≤ (1e-5 : ℝ)) := by
      funext i
      rw [abs_sub_comm]
    rw [hlen, hfun]
  · unfold Vec.veq
    have hne1 : Vec.usub64 a.length b.length ≠ 0 := fun h0 =>
      hlen ((Vec.usub64_eq_zero_iff a.length b.length ha hb).mp h0)
    have hne2 : Vec.usub64 b.length a.length ≠ 0 := fun h0 =>
      hlen (((Vec.usub64_eq_zero_iff b.length a.length hb ha).mp h0).symm)
    rw [if_pos (Vec.nat_cast_gt_eps hne1), if_pos (Vec.nat_cast_gt_eps hne2)]

/-- C10 witness: on the concrete pair `[1]`, `[2]` (and hence lengths `1`,
`1`), equality evaluates identically in both orders. -/
theorem veq_symm_witness :
    Vec.veq ([1] : List ℝ) [2] = Vec.veq ([2] : List ℝ) [1] :=
  veq_symm [1] [2] (by norm_num) (by norm_num)

lemma Vec.normalizeE_e1 : Vec.normalizeE ([1, 0, 0] : List ℝ) = .ok [1, 0, 0] := by
  have hs : Vec.sumSq ([1, 0, 0] : List ℝ) = 1 := by norm_num [Vec.sumSq]
  have hn : Vec.normalize ([1, 0, 0] : List ℝ) = ([1, 0, 0], none) := by
    simp [Vec.normalize, hs, Real.sqrt_one]
  unfold Vec.normalizeE
  rw [hn]

lemma Vec.pu_orth_e1 (draw : Nat → ℝ) :
    Vec.pu_orth ([1, 0, 0] : List ℝ) draw = .ok [0, draw 1, draw 2] := by
  simp [Vec.pu_orth, Vec.normalizeE_e1, Vec.randomFill, Vec.vmul, Vec.vsub,
    List.range_succ]

/-- C9: `find_pu_vector` never modifies its argument: in the state-passing
rendering the buffer of `a` after the call equals the buffer before it, on
the success path and on every throwing path alike (the source takes `a` by
const reference and works only on deep copies and locals). -/
theorem find_pu_frame (a : List ℝ) (draw : Nat → ℝ) :
    (Vec.find_pu_vector_run a draw).1 = a := by
  unfold Vec.find_pu_vector_run
  split
  · rfl
  · split <;> rfl

/-- C1: for every draw of the random source with components in `[-1, 1]` such
that the intermediate difference `b_orth = b - (b * a_norm) * a_norm` is not
the zero vector, `find_pu_vector` on `[1, 0, 0]` returns a vector whose
Euclidean norm is within `1e-5` of `1` and whose dot product with
`normalize([1, 0, 0])` is within `1e-5` of `0` (here both hold exactly). -/
theorem find_pu_spec (draw : Nat → ℝ)
    (hdr : ∀ i < 3, -1 ≤ draw i ∧ draw i ≤ 1)
    (bo : List ℝ) (hbo : Vec.pu_orth [1, 0, 0] draw = .ok bo)
    (hnz : Vec.sumSq bo ≠ 0) :
    ∃ o, Vec.find_pu_vector [1, 0, 0] draw = .ok o ∧
      |Real.sqrt (Vec.sumSq o) - 1| ≤ 1e-5 ∧
      ∀ an, Vec.normalizeE [1, 0, 0] = .ok an → |Vec.dot o an| ≤ 1e-5 := by
  have hbo' : bo = [0, draw 1, draw 2] :=
    (Except.ok.inj ((Vec.pu_orth_e1 draw).symm.trans hbo)).symm
  subst hbo'
  have hs_nonneg : (0 : ℝ) ≤ Vec.sumSq ([0, draw 1, draw 2] : List ℝ) :=
    Vec.sumSq_nonneg _
  have hmul : Real.sqrt (Vec.sumSq ([0, draw 1, draw 2] : List ℝ)) *
      Real.sqrt (Vec.sumSq ([0, draw 1, draw 2] : List ℝ)) =
      Vec.sumSq ([0, draw 1, draw 2] : List ℝ) :=
    Real.mul_self_sqrt hs_nonneg
  have hnorm : Vec.normalize ([0, draw 1, draw 2] : List ℝ) =
      (([0, draw 1, draw 2] : List ℝ).map
        (fun x => x / Real.sqrt (Vec.sumSq ([0, draw 1, draw 2] : List ℝ))),
        none) := by
    simp [Vec.normalize, hnz]
  refine ⟨([0, draw 1, draw 2] : List ℝ).map
    (fun x => x / Real.sqrt (Vec.sumSq ([0, draw 1, draw 2] : List ℝ))),
    ?_, ?_, ?_⟩
  · simp only [Vec.find_pu_vector, Vec.find_pu_vector_run, Vec.pu_orth_e1 draw,
      hnorm]
  · have hexp : Vec.sumSq (([0, draw 1, draw 2] : List ℝ).map
        (fun x => x / Real.sqrt (Vec.sumSq ([0, draw 1, draw 2] : List ℝ)))) =
        Vec.sumSq ([0, draw 1, draw 2] : List ℝ) /
          (Real.sqrt (Vec.sumSq ([0, draw 1, draw 2] : List ℝ)) *
            Real.sqrt (Vec.sumSq ([0, draw 1, draw 2] : List ℝ))) := by
      simp [Vec.sumSq]
      ring
    rw [hexp, hmul, div_self hnz, Real.sqrt_one, sub_self, abs_zero]
    norm_num
  · intro an han
    rw [Vec.normalizeE_e1] at han
    have han' : ([1, 0, 0] : List ℝ) = an := Except.ok.inj han
    subst han'
    have hdot : Vec.dot (([0, draw 1, draw 2] : List ℝ).map
        (fun x => x / Real.sqrt (Vec.sumSq ([0, draw 1, draw 2] : List ℝ))))
        ([1, 0, 0] : List ℝ) = 0 := by
      simp [Vec.dot]
    rw [hdot, abs_zero]
    norm_num

/-- C1 witness: with the concrete draw that returns `1` at index 1 and `0`
elsewhere, `find_pu_vector([1,0,0])` succeeds with a unit vector orthogonal
to `normalize([1,0,0])`. -/
theorem find_pu_spec_witness :
    ∃ o, Vec.find_pu_vector [1, 0, 0]
        (fun i => if i = 1 then (1 : ℝ) else 0) = .ok o ∧
      |Real.sqrt (Vec.sumSq o) - 1| ≤ 1e-5 ∧
      ∀ an, Vec.normalizeE [1, 0, 0] = .ok an → |Vec.dot o an| ≤ 1e-5 := by
  refine find_pu_spec _ ?_ _ (Vec.pu_orth_e1 _) ?_
  · intro i hi
    constructor <;> split <;> norm_num
  · norm_num [Vec.sumSq]
